import Mathlib

/-!
# Verification of the gogetem download-orchestration subsystem

This file is a shallow embedding, in Lean 4, of the core logic of
`gogetem/gogetem.py`:

* the batch planner `ena_query_format`, which partitions an ordered
  sequence of ENA accession strings into comma-joined batch keys whose
  accumulated accession length stays under a 1000-character ceiling;
* the fetch client `ena_fetch`, which retrieves one batch and gunzips
  the HTTP body into text;
* the per-round downloader `ena_download_accessions`, which skips batch
  keys whose digest-named file already exists, fetches the rest, writes
  non-empty results to disk and collects the keys whose fetch came back
  empty;
* the retry orchestrator `ena_retrieve`, which re-runs the downloader on
  the failed keys until none remain.

Embedding conventions:

* Python strings that the batch planner dissects are modelled as
  `List Char` (`PyStr`); `str.join` and `str.split` become `sepJoin` and
  `sepSplit`.  Strings used only as opaque keys, paths and payloads by
  the orchestrator are modelled as Lean `String`.
* The filesystem is modelled as an association list from path to file
  content; a write prepends an entry, and `assocLookup` returns the
  most recent entry, so "the file exists" is `(assocLookup p files).isSome`.
* The network is modelled as an oracle `fetch : String → Nat → String`
  giving the text returned for a batch key on its n-th attempt
  (0-based); the state records a per-key attempt counter so that the
  oracle can model stubs whose behaviour changes between retry rounds.
* The downloader additionally returns the trace of per-key events
  (skipped by the dedup check, or attempted with a given fetch result);
  the failed list and the final state are exactly those of the source.
* The unbounded `while failed_queries:` loop of `ena_retrieve` is
  modelled with a fuel parameter counting retry rounds; `some st` means
  the loop exited with an empty failure list within that many rounds.
-/

set_option linter.unusedVariables false

/-- A Python string, modelled as its list of characters. -/
abbrev PyStr := List Char

/-- Model of Python `sep.join(parts)` for a one-character separator. -/
def sepJoin (sep : Char) : List PyStr → PyStr
  | [] => []
  | [x] => x
  | x :: y :: rest => x ++ sep :: sepJoin sep (y :: rest)

/-- Model of Python `s.split(sep)` for a one-character separator.
Always returns a non-empty list; splitting the empty string yields
`[[]]`, exactly as splitting the empty string in Python yields a
one-element list holding the empty string. -/
def sepSplit (sep : Char) : PyStr → List PyStr
  | [] => [[]]
  | c :: rest =>
    if c = sep then [] :: sepSplit sep rest
    else
      match sepSplit sep rest with
      | [] => [[c]]
      | r :: rs => (c :: r) :: rs

/-- `sepSplit` never returns the empty list of parts. -/
theorem sepSplit_ne_nil (sep : Char) (s : PyStr) : sepSplit sep s ≠ [] := by
  cases s with
  | nil => simp [sepSplit]
  | cons c rest =>
    simp only [sepSplit]
    split
    · simp
    · split <;> simp

/-- Splitting a separator-free string returns that string as the sole part. -/
theorem sepSplit_no_sep (sep : Char) (s : PyStr) (h : sep ∉ s) :
    sepSplit sep s = [s] := by
  induction s with
  | nil => simp [sepSplit]
  | cons c rest ih =>
    simp only [List.mem_cons, not_or] at h
    simp only [sepSplit, if_neg (Ne.symm h.1), ih h.2]

/-- Splitting after a leading separator-free chunk plus one separator
peels off exactly that chunk. -/
theorem sepSplit_append_sep (sep : Char) (x t : PyStr) (h : sep ∉ x) :
    sepSplit sep (x ++ sep :: t) = x :: sepSplit sep t := by
  induction x with
  | nil => simp [sepSplit]
  | cons c rest ih =>
    simp only [List.mem_cons, not_or] at h
    rw [List.cons_append]
    simp only [sepSplit, if_neg (Ne.symm h.1), ih h.2]

/-- Round trip: splitting a join recovers the original non-empty list of
separator-free parts. -/
theorem sepSplit_sepJoin (sep : Char) (L : List PyStr) (hne : L ≠ [])
    (hfree : ∀ l ∈ L, sep ∉ l) : sepSplit sep (sepJoin sep L) = L := by
  induction L with
  | nil => exact absurd rfl hne
  | cons x rest ih =>
    cases rest with
    | nil =>
      simp only [sepJoin]
      exact sepSplit_no_sep sep x (hfree x (by simp))
    | cons y rs =>
      simp only [sepJoin]
      rw [sepSplit_append_sep sep x _ (hfree x (by simp))]
      rw [ih (by simp) (fun l hl => hfree l (List.mem_cons_of_mem x hl))]

/-- The total length of the parts of a split, plus the number of
separators, accounts for every character of the string. -/
theorem sepSplit_sum_length (sep : Char) (s : PyStr) :
    ((sepSplit sep s).map List.length).sum + s.count sep = s.length := by
  induction s with
  | nil => simp [sepSplit]
  | cons c rest ih =>
    simp only [sepSplit]
    by_cases hc : c = sep
    · subst hc
      rw [if_pos rfl]
      simp only [List.map_cons, List.sum_cons, List.length_nil,
        List.length_cons, List.count_cons_self]
      omega
    · rw [if_neg hc]
      rcases hr : sepSplit sep rest with _ | ⟨r, rs⟩
      · exact absurd hr (sepSplit_ne_nil sep rest)
      · rw [hr] at ih
        simp only [List.map_cons, List.sum_cons, List.length_cons] at ih ⊢
        rw [List.count_cons_of_ne (Ne.symm hc)]
        omega

/-- Length of a join: the characters of the parts plus one separator
between consecutive parts. -/
theorem sepJoin_length (sep : Char) (L : List PyStr) (hne : L ≠ []) :
    (sepJoin sep L).length + 1 = (L.map List.length).sum + L.length := by
  induction L with
  | nil => exact absurd rfl hne
  | cons x rest ih =>
    cases rest with
    | nil => simp [sepJoin]
    | cons y rs =>
      simp only [sepJoin, List.length_append, List.length_cons,
        List.map_cons, List.sum_cons] at ih ⊢
      have := ih (by simp)
      omega

/-- Separator count of a join: the separators inside the parts plus one
between consecutive parts. -/
theorem sepJoin_count (sep : Char) (L : List PyStr) (hne : L ≠ []) :
    (sepJoin sep L).count sep + 1 = (L.map (fun l => l.count sep)).sum + L.length := by
  induction L with
  | nil => exact absurd rfl hne
  | cons x rest ih =>
    cases rest with
    | nil => simp [sepJoin]
    | cons y rs =>
      simp only [sepJoin, List.count_append, List.count_cons_self,
        List.map_cons, List.sum_cons, List.length_cons] at ih ⊢
      have := ih (by simp)
      omega

/-- Splitting a join cannot increase the total character count of the
parts: separators are dropped, so the sum of part lengths of
`sepSplit sep (sepJoin sep L)` is at most the sum of lengths of `L`. -/
theorem sepSplit_sepJoin_sum_le (sep : Char) (L : List PyStr) :
    ((sepSplit sep (sepJoin sep L)).map List.length).sum ≤
      (L.map List.length).sum := by
  cases L with
  | nil => simp [sepJoin, sepSplit]
  | cons x rest =>
    have h1 := sepSplit_sum_length sep (sepJoin sep (x :: rest))
    have h2 := sepJoin_length sep (x :: rest) (by simp)
    have h3 := sepJoin_count sep (x :: rest) (by simp)
    omega

/-- A join of a non-empty list of non-empty parts is non-empty. -/
theorem sepJoin_ne_nil (sep : Char) (L : List PyStr) (hne : L ≠ [])
    (hparts : ∀ l ∈ L, l ≠ []) : sepJoin sep L ≠ [] := by
  cases L with
  | nil => exact absurd rfl hne
  | cons x rest =>
    cases rest with
    | nil => exact hparts x (by simp)
    | cons y rs => simp [sepJoin]

/-! ## Batch planner: `ena_query_format` (gogetem.py lines 235-255)

The Python generator walks the accession column keeping the current
batch `current_accessions` and its accumulated accession length
`query_length`; it yields `",".join(current_accessions)` whenever the
next accession would push the accumulated length to 1000 or beyond, and
always yields the in-progress batch once the input is exhausted (the
`for ... else` clause).  The generator is embedded as the list of the
lists it accumulates (`ena_query_format_go`); the emitted batch keys
are the `","`-joins of those lists, taken at the same program points as
the Python `yield`s. -/

/-- The loop of `ena_query_format`: arguments are the remaining input,
`current_accessions` and `query_length`. -/
def ena_query_format_go : List PyStr → List PyStr → Nat → List (List PyStr)
  | [], current_accessions, _ => [current_accessions]
  | accession :: rest, current_accessions, query_length =>
    if query_length + accession.length < 1000 then
      ena_query_format_go rest (current_accessions ++ [accession])
        (query_length + accession.length)
    else
      current_accessions ::
        ena_query_format_go rest [accession] accession.length

/-- The batches accumulated by `ena_query_format`, as lists of
accessions (before the `",".join` performed at each yield). -/
def ena_query_format_batches (accessions : List PyStr) : List (List PyStr) :=
  ena_query_format_go accessions [] 0

/-- The sequence of batch keys yielded by `ena_query_format`. -/
def ena_query_format (accessions : List PyStr) : List PyStr :=
  (ena_query_format_batches accessions).map (sepJoin ',')

/-- Concatenating the accumulated batches restores the pending batch
followed by the remaining input. -/
theorem ena_query_format_go_join (accessions : List PyStr) :
    ∀ (current : List PyStr) (qlen : Nat),
      (ena_query_format_go accessions current qlen).flatten =
        current ++ accessions := by
  induction accessions with
  | nil => intro current qlen; simp [ena_query_format_go]
  | cons a rest ih =>
    intro current qlen
    simp only [ena_query_format_go]
    split
    · rw [ih]; simp
    · simp only [List.flatten_cons, ih]
      simp

/-- Every accumulated batch is non-empty, provided the pending batch is. -/
theorem ena_query_format_go_ne_nil (accessions : List PyStr) :
    ∀ (current : List PyStr) (qlen : Nat), current ≠ [] →
      ∀ b ∈ ena_query_format_go accessions current qlen, b ≠ [] := by
  induction accessions with
  | nil =>
    intro current qlen hcur b hb
    simp only [ena_query_format_go, List.mem_singleton] at hb
    exact hb ▸ hcur
  | cons a rest ih =>
    intro current qlen hcur b hb
    simp only [ena_query_format_go] at hb
    split at hb
    · exact ih _ _ (by simp) b hb
    · rcases List.mem_cons.mp hb with h | h
      · exact h ▸ hcur
      · exact ih [a] a.length (by simp) b h

/-- Every member of an accumulated batch comes from the pending batch or
the input. -/
theorem ena_query_format_go_mem (accessions : List PyStr)
    (current : List PyStr) (qlen : Nat) (b : List PyStr)
    (hb : b ∈ ena_query_format_go accessions current qlen) :
    ∀ l ∈ b, l ∈ current ++ accessions := by
  intro l hl
  rw [← ena_query_format_go_join accessions current qlen]
  exact List.mem_flatten_of_mem hb hl

/-- The accumulated length invariant: if every accession is shorter than
1000 characters and the pending batch is within the ceiling, every
accumulated batch has total accession length below 1000. -/
theorem ena_query_format_go_sum_lt (accessions : List PyStr) :
    ∀ (current : List PyStr) (qlen : Nat),
      (∀ a ∈ accessions, a.length < 1000) →
      qlen = (current.map List.length).sum → qlen < 1000 →
      ∀ b ∈ ena_query_format_go accessions current qlen,
        (b.map List.length).sum < 1000 := by
  induction accessions with
  | nil =>
    intro current qlen hall hsum hlt b hb
    simp only [ena_query_format_go, List.mem_singleton] at hb
    exact hb ▸ (hsum ▸ hlt)
  | cons a rest ih =>
    intro current qlen hall hsum hlt b hb
    simp only [ena_query_format_go] at hb
    split at hb
    · rename_i hcond
      refine ih _ _ (fun x hx => hall x (List.mem_cons_of_mem a hx)) ?_ hcond b hb
      simp [hsum]
    · rcases List.mem_cons.mp hb with h | h
      · exact h ▸ (hsum ▸ hlt)
      · exact ih [a] a.length (fun x hx => hall x (List.mem_cons_of_mem a hx))
          (by simp) (hall a (by simp)) b h

/-- First step of the planner: an under-ceiling first accession starts
the first batch (the guard `0 + len(a0) < 1000` succeeds). -/
theorem ena_query_format_batches_cons (a0 : PyStr) (rest : List PyStr)
    (hlen : a0.length < 1000) :
    ena_query_format_batches (a0 :: rest) =
      ena_query_format_go rest [a0] a0.length := by
  unfold ena_query_format_batches
  simp only [ena_query_format_go]
  rw [if_pos (by omega)]
  simp

/-- C1 counterexample: the claim fails on the empty input.  The
`for ... else` clause still yields `",".join([])`, so `ena_query_format`
emits the single batch key `""`; splitting it on `,` gives `[""]`, which
is not the original empty sequence. -/
theorem partition_invariant_fails_on_empty_input :
    ((ena_query_format []).map (sepSplit ',')).flatten ≠ ([] : List PyStr) := by
  decide

/-- C1 (amended): for every non-empty input sequence of accessions, none
of which contains the separator `,`, and whose first accession is
shorter than 1000 characters, splitting each batch key emitted by
`ena_query_format` on `,` and concatenating the results reproduces the
original accession sequence exactly: same elements, same order, no
duplicates, no omissions. -/
theorem partition_invariant_amended (a0 : PyStr) (rest : List PyStr)
    (hlen : a0.length < 1000)
    (hfree : ∀ a ∈ a0 :: rest, ',' ∉ a) :
    ((ena_query_format (a0 :: rest)).map (sepSplit ',')).flatten
      = a0 :: rest := by
  have hne : ∀ b ∈ ena_query_format_go rest [a0] a0.length, b ≠ [] :=
    ena_query_format_go_ne_nil rest [a0] a0.length (by simp)
  have hsplit : ∀ b ∈ ena_query_format_go rest [a0] a0.length,
      sepSplit ',' (sepJoin ',' b) = b := by
    intro b hb
    refine sepSplit_sepJoin ',' b (hne b hb) ?_
    intro l hl
    have hm : l ∈ [a0] ++ rest :=
      ena_query_format_go_mem rest [a0] a0.length b hb l hl
    exact hfree l (by simpa using hm)
  have hmaps : ((ena_query_format_go rest [a0] a0.length).map
      (fun b => sepSplit ',' (sepJoin ',' b))) =
      (ena_query_format_go rest [a0] a0.length).map id :=
    List.map_congr_left (fun b hb => hsplit b hb)
  calc ((ena_query_format (a0 :: rest)).map (sepSplit ',')).flatten
      = ((ena_query_format_go rest [a0] a0.length).map
          (fun b => sepSplit ',' (sepJoin ',' b))).flatten := by
        rw [ena_query_format, ena_query_format_batches_cons a0 rest hlen,
          List.map_map]
        rfl
    _ = (ena_query_format_go rest [a0] a0.length).flatten := by
        rw [hmaps, List.map_id]
    _ = a0 :: rest := by
        simpa using ena_query_format_go_join rest [a0] a0.length

/-- C1 witness: the amended partition invariant at a concrete input. -/
theorem partition_invariant_amended_witness :
    ((ena_query_format [['a','b'], ['c']]).map (sepSplit ',')).flatten
      = [['a','b'], ['c']] :=
  partition_invariant_amended ['a','b'] [['c']] (by decide) (by decide)

/-- C2 counterexample: the claim fails when the first accession already
has length 1000.  The guard `0 + 1000 < 1000` fails on the very first
iteration, so the planner yields `",".join([])` — an empty batch key —
before starting the batch that holds the oversized accession. -/
theorem nonempty_batch_fails_on_long_first_accession :
    ([List.replicate 1000 'x'] ≠ ([] : List (List Char))) ∧
      [] ∈ ena_query_format [List.replicate 1000 'x'] := by
  refine ⟨List.cons_ne_nil _ _, ?_⟩
  simp only [ena_query_format, ena_query_format_batches, ena_query_format_go]
  rw [if_neg (by rw [List.length_replicate]; omega)]
  simp only [List.map_cons, sepJoin, List.mem_cons]
  exact Or.inl trivial

/-- C2 (amended): for every non-empty input sequence of non-empty
accessions whose first accession is shorter than 1000 characters, no
batch key emitted by `ena_query_format` is the empty string.  (When the
first accession alone meets or exceeds the ceiling, the code does place
it alone into its own batch, but it emits an empty batch key before it.) -/
theorem nonempty_batch_amended (a0 : PyStr) (rest : List PyStr)
    (hlen : a0.length < 1000) (hne : ∀ a ∈ a0 :: rest, a ≠ []) :
    ∀ k ∈ ena_query_format (a0 :: rest), k ≠ [] := by
  intro k hk
  rw [ena_query_format, ena_query_format_batches_cons a0 rest hlen] at hk
  rcases List.mem_map.mp hk with ⟨b, hb, rfl⟩
  refine sepJoin_ne_nil ',' b
    (ena_query_format_go_ne_nil rest [a0] a0.length (by simp) b hb) ?_
  intro l hl
  have hm : l ∈ [a0] ++ rest :=
    ena_query_format_go_mem rest [a0] a0.length b hb l hl
  exact hne l (by simpa using hm)

/-- C2 witness: the amended non-emptiness claim at a concrete input. -/
theorem nonempty_batch_amended_witness :
    [] ∉ ena_query_format [['G','O']] :=
  fun h => nonempty_batch_amended ['G','O'] [] (by decide) (by decide) [] h rfl

/-- C3: if every accession is shorter than 1000 characters, then every
batch key emitted by `ena_query_format` has a total member-accession
length (separators not counted) strictly below 1000; the guard is a
strict `<`, so a batch that would reach exactly 1000 is closed before
the offending accession is added. -/
theorem batch_size_bound (accessions : List PyStr)
    (hall : ∀ a ∈ accessions, a.length < 1000) :
    ∀ key ∈ ena_query_format accessions,
      ((sepSplit ',' key).map List.length).sum < 1000 := by
  intro key hk
  rw [ena_query_format] at hk
  rcases List.mem_map.mp hk with ⟨b, hb, rfl⟩
  have hsum : (b.map List.length).sum < 1000 :=
    ena_query_format_go_sum_lt accessions [] 0 hall (by simp) (by norm_num) b hb
  exact lt_of_le_of_lt (sepSplit_sepJoin_sum_le ',' b) hsum

/-- C3 witness: the size bound at a concrete input whose two accessions
share one batch. -/
theorem batch_size_bound_witness :
    ((sepSplit ',' ['A','B',',','C','D']).map List.length).sum < 1000 :=
  batch_size_bound [['A','B'], ['C','D']] (by decide) ['A','B',',','C','D']
    (by decide)

/-! ## Retry orchestrator: `ena_download_accessions` (lines 267-296),
`ena_retrieve` (lines 89-102) and `ena_fetch` (lines 258-264)

The filesystem visible to this subsystem is the set of files in the
`nucleotide` download directory, modelled as an association list from
path to content in which a write prepends an entry; `assocLookup`
returns the newest entry for a path, so `(assocLookup p files).isSome`
is `fasta_path.exists()`.  The network is an oracle
`fetch : String → Nat → String` giving the text `ena_fetch` returns for
a batch key on its n-th call for that key (0-based); the state carries
a per-key call counter so the oracle can express stubs that fail for a
while and then succeed.  The downloader also returns the trace of
per-key events (skipped by the dedup check, or attempted with the text
the fetch returned); the failed list and the resulting files are
exactly those produced by the Python code. -/

/-- Lookup in an association list, newest entry first. -/
def assocLookup {α : Type} (key : String) : List (String × α) → Option α
  | [] => none
  | (k, v) :: rest => if key = k then some v else assocLookup key rest

/-- State threaded through the downloader: the files of the nucleotide
download directory, and the per-batch-key fetch call counter. -/
structure OrchState where
  files : List (String × String)
  attempts : List (String × Nat)

/-- Number of fetch calls made so far for a batch key. -/
def attemptsOf (st : OrchState) (q : String) : Nat :=
  (assocLookup q st.attempts).getD 0

/-- One per-key event of a downloader round. -/
inductive FetchEvent where
  | skipped (q : String)
  | attempted (q : String) (result : String)
deriving DecidableEq

/-- Result of one round of `ena_download_accessions`: the failed batch
keys in encounter order, the final state, and the event trace. -/
structure DLResult where
  failed : List String
  finalState : OrchState
  events : List FetchEvent

/-- Model of `ena_download_accessions`.  For each batch key in order:
compute the digest-named path; if the file exists, skip; otherwise call
the fetch oracle, write the text to the path when it is non-empty, and
append the key to the failed list when it is empty (the Python
`if fasta: ... else: failed.append(...)`). -/
def ena_download_accessions (digest : String → String)
    (fetch : String → Nat → String) :
    List String → OrchState → DLResult
  | [], st => ⟨[], st, []⟩
  | q :: rest, st =>
    if (assocLookup (digest q ++ ".fasta") st.files).isSome then
      match ena_download_accessions digest fetch rest st with
      | ⟨failed, stF, evs⟩ => ⟨failed, stF, FetchEvent.skipped q :: evs⟩
    else
      if fetch q (attemptsOf st q) = "" then
        match ena_download_accessions digest fetch rest
            ⟨st.files, (q, attemptsOf st q + 1) :: st.attempts⟩ with
        | ⟨failed, stF, evs⟩ =>
          ⟨q :: failed, stF,
            FetchEvent.attempted q (fetch q (attemptsOf st q)) :: evs⟩
      else
        match ena_download_accessions digest fetch rest
            ⟨(digest q ++ ".fasta", fetch q (attemptsOf st q)) :: st.files,
              (q, attemptsOf st q + 1) :: st.attempts⟩ with
        | ⟨failed, stF, evs⟩ =>
          ⟨failed, stF,
            FetchEvent.attempted q (fetch q (attemptsOf st q)) :: evs⟩

/-- Model of the `while failed_queries:` loop of `ena_retrieve`, with a
fuel parameter bounding the number of retry rounds (the Python loop is
unbounded).  `some st` means the loop exited because the failure list
became empty within the given number of retry rounds; `none` means the
fuel ran out while failures remained. -/
def ena_retrieve_loop (digest : String → String)
    (fetch : String → Nat → String) :
    Nat → List String → OrchState → Option OrchState
  | _, [], st => some st
  | 0, _ :: _, _ => none
  | fuel + 1, q :: qs, st =>
    ena_retrieve_loop digest fetch fuel
      (ena_download_accessions digest fetch (q :: qs) st).failed
      (ena_download_accessions digest fetch (q :: qs) st).finalState

/-- Model of `ena_retrieve`: one initial downloader round over the
planned batch keys, then the retry loop over the failed keys. -/
def ena_retrieve (digest : String → String)
    (fetch : String → Nat → String) (fuel : Nat)
    (ena_queries : List String) (st : OrchState) : Option OrchState :=
  ena_retrieve_loop digest fetch fuel
    (ena_download_accessions digest fetch ena_queries st).failed
    (ena_download_accessions digest fetch ena_queries st).finalState

/-- Model of `ena_fetch`: builds the query URL from the fixed base URL
and the batch key, performs the GET (modelled as an oracle from URL to
response body, a byte list), and gunzip-decodes the body into text.
The gunzip step is stdlib behaviour outside this repository, so it is a
parameter of the model. -/
def ena_fetch (http_get : String → List Nat)
    (gunzip_decode : List Nat → String) (ena_query : String) : String :=
  gunzip_decode
    (http_get ("https://www.ebi.ac.uk/ena/browser/api/fasta/" ++ ena_query))

/-- Branch lemma: batch key whose file already exists is skipped. -/
theorem dl_cons_skip (digest : String → String)
    (fetch : String → Nat → String) (q : String) (rest : List String)
    (st : OrchState)
    (hex : (assocLookup (digest q ++ ".fasta") st.files).isSome = true) :
    ena_download_accessions digest fetch (q :: rest) st =
      ⟨(ena_download_accessions digest fetch rest st).failed,
        (ena_download_accessions digest fetch rest st).finalState,
        FetchEvent.skipped q ::
          (ena_download_accessions digest fetch rest st).events⟩ := by
  rw [ena_download_accessions, if_pos hex]

/-- Branch lemma: attempted batch key whose fetch returned empty text is
added to the failed list; only the attempt counter changes. -/
theorem dl_cons_fail (digest : String → String)
    (fetch : String → Nat → String) (q : String) (rest : List String)
    (st : OrchState)
    (hex : assocLookup (digest q ++ ".fasta") st.files = none)
    (hf : fetch q (attemptsOf st q) = "") :
    ena_download_accessions digest fetch (q :: rest) st =
      ⟨q :: (ena_download_accessions digest fetch rest
          ⟨st.files, (q, attemptsOf st q + 1) :: st.attempts⟩).failed,
        (ena_download_accessions digest fetch rest
          ⟨st.files, (q, attemptsOf st q + 1) :: st.attempts⟩).finalState,
        FetchEvent.attempted q (fetch q (attemptsOf st q)) ::
          (ena_download_accessions digest fetch rest
            ⟨st.files, (q, attemptsOf st q + 1) :: st.attempts⟩).events⟩ := by
  rw [ena_download_accessions, if_neg (by rw [hex]; simp), if_pos hf]

/-- Branch lemma: attempted batch key whose fetch returned non-empty
text has the text written at its digest-named path. -/
theorem dl_cons_write (digest : String → String)
    (fetch : String → Nat → String) (q : String) (rest : List String)
    (st : OrchState)
    (hex : assocLookup (digest q ++ ".fasta") st.files = none)
    (hf : fetch q (attemptsOf st q) ≠ "") :
    ena_download_accessions digest fetch (q :: rest) st =
      ⟨(ena_download_accessions digest fetch rest
          ⟨(digest q ++ ".fasta", fetch q (attemptsOf st q)) :: st.files,
            (q, attemptsOf st q + 1) :: st.attempts⟩).failed,
        (ena_download_accessions digest fetch rest
          ⟨(digest q ++ ".fasta", fetch q (attemptsOf st q)) :: st.files,
            (q, attemptsOf st q + 1) :: st.attempts⟩).finalState,
        FetchEvent.attempted q (fetch q (attemptsOf st q)) ::
          (ena_download_accessions digest fetch rest
            ⟨(digest q ++ ".fasta", fetch q (attemptsOf st q)) :: st.files,
              (q, attemptsOf st q + 1) :: st.attempts⟩).events⟩ := by
  rw [ena_download_accessions, if_neg (by rw [hex]; simp), if_neg hf]

/-- A file present with some content before a downloader round still has
exactly that content afterwards: the downloader never overwrites. -/
theorem dl_preserves_file (digest : String → String)
    (fetch : String → Nat → String) (queries : List String) :
    ∀ (st : OrchState) (p c : String),
      assocLookup p st.files = some c →
      assocLookup p
        (ena_download_accessions digest fetch queries st).finalState.files
        = some c := by
  induction queries with
  | nil => intro st p c h; simpa [ena_download_accessions] using h
  | cons q rest ih =>
    intro st p c h
    rcases hex : assocLookup (digest q ++ ".fasta") st.files with _ | v
    · by_cases hf : fetch q (attemptsOf st q) = ""
      · rw [dl_cons_fail digest fetch q rest st hex hf]
        exact ih _ p c h
      · rw [dl_cons_write digest fetch q rest st hex hf]
        apply ih
        have hne : p ≠ digest q ++ ".fasta" := by
          intro he
          rw [he, hex] at h
          exact Option.noConfusion h
        simpa [assocLookup, if_neg hne] using h
    · rw [dl_cons_skip digest fetch q rest st (by rw [hex]; rfl)]
      exact ih st p c h

/-- Existence version of `dl_preserves_file`. -/
theorem dl_preserves_file_isSome (digest : String → String)
    (fetch : String → Nat → String) (queries : List String)
    (st : OrchState) (p : String)
    (h : (assocLookup p st.files).isSome = true) :
    (assocLookup p
      (ena_download_accessions digest fetch queries st).finalState.files).isSome
      = true := by
  rcases hsome : assocLookup p st.files with _ | v
  · rw [hsome] at h; exact Bool.noConfusion h
  · rw [dl_preserves_file digest fetch queries st p v hsome]; rfl

/-- Lookup after prepending the looked-up key. -/
theorem assocLookup_cons_self {α : Type} (k : String) (v : α)
    (l : List (String × α)) : assocLookup k ((k, v) :: l) = some v := by
  simp [assocLookup]

/-- Lookup after prepending a different key. -/
theorem assocLookup_cons_ne {α : Type} (p k : String) (v : α)
    (l : List (String × α)) (h : p ≠ k) :
    assocLookup p ((k, v) :: l) = assocLookup p l := by
  simp [assocLookup, if_neg h]

/-- Prepending an entry cannot make a present key absent. -/
theorem assocLookup_cons_isSome {α : Type} (p k : String) (v : α)
    (l : List (String × α)) (h : (assocLookup p l).isSome = true) :
    (assocLookup p ((k, v) :: l)).isSome = true := by
  by_cases hpk : p = k
  · subst hpk; rw [assocLookup_cons_self]; rfl
  · rw [assocLookup_cons_ne p k v l hpk]; exact h

/-- Single-key downloader round, file absent, fetch empty: the key is
returned as failed and only its attempt counter changes. -/
theorem dl_single_fail (digest : String → String)
    (fetch : String → Nat → String) (k : String) (st : OrchState)
    (h1 : assocLookup (digest k ++ ".fasta") st.files = none)
    (h2 : fetch k (attemptsOf st k) = "") :
    ena_download_accessions digest fetch [k] st =
      ⟨[k], ⟨st.files, (k, attemptsOf st k + 1) :: st.attempts⟩,
        [FetchEvent.attempted k ""]⟩ := by
  rw [dl_cons_fail digest fetch k [] st h1 h2, h2]
  rfl

/-- Single-key downloader round, file absent, fetch non-empty: nothing
fails and the text is written at the digest-named path. -/
theorem dl_single_succ (digest : String → String)
    (fetch : String → Nat → String) (k : String) (st : OrchState)
    (h1 : assocLookup (digest k ++ ".fasta") st.files = none)
    (h2 : fetch k (attemptsOf st k) ≠ "") :
    ena_download_accessions digest fetch [k] st =
      ⟨[], ⟨(digest k ++ ".fasta", fetch k (attemptsOf st k)) :: st.files,
          (k, attemptsOf st k + 1) :: st.attempts⟩,
        [FetchEvent.attempted k (fetch k (attemptsOf st k))]⟩ := by
  rw [dl_cons_write digest fetch k [] st h1 h2]
  rfl

/-- Convergence of the retry loop on a single batch key whose remaining
failing attempts number `d`: with `d + 1` rounds of fuel the loop
terminates with the file written and `N + 1` total fetch calls. -/
theorem loop_conv (digest : String → String)
    (fetch : String → Nat → String) (k t : String) (N : Nat)
    (hfail : ∀ n, n < N → fetch k n = "")
    (hsucc : fetch k N = t) (ht : t ≠ "") :
    ∀ (d : Nat) (st : OrchState),
      assocLookup (digest k ++ ".fasta") st.files = none →
      attemptsOf st k = N - d → d ≤ N →
      ∃ stF, ena_retrieve_loop digest fetch (d + 1) [k] st = some stF ∧
        assocLookup (digest k ++ ".fasta") stF.files = some t ∧
        attemptsOf stF k = N + 1 := by
  intro d
  induction d with
  | zero =>
    intro st hnone hatt hle
    have hA : attemptsOf st k = N := by omega
    have hfe : fetch k (attemptsOf st k) = t := by rw [hA]; exact hsucc
    have hdl := dl_single_succ digest fetch k st hnone (by rw [hfe]; exact ht)
    refine ⟨⟨(digest k ++ ".fasta", fetch k (attemptsOf st k)) :: st.files,
      (k, attemptsOf st k + 1) :: st.attempts⟩, ?_, ?_, ?_⟩
    · rw [ena_retrieve_loop, hdl]
      rfl
    · show assocLookup (digest k ++ ".fasta")
        ((digest k ++ ".fasta", fetch k (attemptsOf st k)) :: st.files) = some t
      rw [assocLookup_cons_self, hfe]
    · show (assocLookup k ((k, attemptsOf st k + 1) :: st.attempts)).getD 0 = N + 1
      rw [assocLookup_cons_self]
      simp [hA]
  | succ d ihd =>
    intro st hnone hatt hle
    have hf0 : fetch k (attemptsOf st k) = "" := hfail _ (by omega)
    have hdl := dl_single_fail digest fetch k st hnone hf0
    have hstep : ena_retrieve_loop digest fetch (d + 1 + 1) [k] st
        = ena_retrieve_loop digest fetch (d + 1) [k]
          ⟨st.files, (k, attemptsOf st k + 1) :: st.attempts⟩ := by
      rw [ena_retrieve_loop, hdl]
    rw [hstep]
    refine ihd ⟨st.files, (k, attemptsOf st k + 1) :: st.attempts⟩ hnone ?_ (by omega)
    show (assocLookup k ((k, attemptsOf st k + 1) :: st.attempts)).getD 0 = N - d
    rw [assocLookup_cons_self]
    simp
    omega

/-- C4: if the fetch oracle returns empty text for batch key `k` on its
first `N` calls and a non-empty text `t` on call `N + 1`, then
`ena_retrieve`, started on work list `[k]` over an empty download
directory, terminates (within `N` retry rounds, i.e. the loop exits with
an empty failure list), the digest-named file for `k` holds `t`, and
exactly `N + 1` fetch calls were made for `k`. -/
theorem retry_convergence (digest : String → String)
    (fetch : String → Nat → String) (k t : String) (N : Nat)
    (hfail : ∀ n, n < N → fetch k n = "")
    (hsucc : fetch k N = t) (ht : t ≠ "") :
    ∃ stF, ena_retrieve digest fetch N [k] ⟨[], []⟩ = some stF ∧
      assocLookup (digest k ++ ".fasta") stF.files = some t ∧
      attemptsOf stF k = N + 1 := by
  have h0 : assocLookup (digest k ++ ".fasta")
      (OrchState.mk [] []).files = none := rfl
  cases N with
  | zero =>
    have hfe : fetch k (attemptsOf ⟨[], []⟩ k) = t := hsucc
    have hdl := dl_single_succ digest fetch k ⟨[], []⟩ h0
      (by rw [hfe]; exact ht)
    refine ⟨⟨[(digest k ++ ".fasta", fetch k (attemptsOf ⟨[], []⟩ k))],
      [(k, attemptsOf ⟨[], []⟩ k + 1)]⟩, ?_, ?_, ?_⟩
    · rw [ena_retrieve, hdl]
      rfl
    · show assocLookup (digest k ++ ".fasta")
        [(digest k ++ ".fasta", fetch k (attemptsOf ⟨[], []⟩ k))] = some t
      rw [assocLookup_cons_self, hfe]
    · show (assocLookup k [(k, attemptsOf ⟨[], []⟩ k + 1)]).getD 0 = 0 + 1
      rw [assocLookup_cons_self]
      rfl
  | succ m =>
    have hf0 : fetch k (attemptsOf ⟨[], []⟩ k) = "" :=
      hfail 0 (Nat.succ_pos m)
    have hdl := dl_single_fail digest fetch k ⟨[], []⟩ h0 hf0
    rw [ena_retrieve, hdl]
    exact loop_conv digest fetch k t (m + 1) hfail hsucc ht m
      ⟨[], [(k, attemptsOf ⟨[], []⟩ k + 1)]⟩ rfl
      (by show (assocLookup k [(k, 0 + 1)]).getD 0 = m + 1 - m
          rw [assocLookup_cons_self]
          simp)
      (by omega)

/-- C4 witness: a stub that fails twice for key `K` and then returns
`SEQ`; the orchestrator converges with three fetch calls. -/
theorem retry_convergence_witness :
    ∃ stF, ena_retrieve (fun q => q)
        (fun _ n => if n < 2 then "" else "SEQ") 2 ["K"] ⟨[], []⟩
        = some stF ∧
      assocLookup ("K" ++ ".fasta") stF.files = some "SEQ" ∧
      attemptsOf stF "K" = 3 :=
  retry_convergence (fun q => q) (fun _ n => if n < 2 then "" else "SEQ")
    "K" "SEQ" 2
    (fun n hn => by simp [hn])
    (by simp)
    (by simp)

/-- C5: a batch key whose digest-named `.fasta` file already exists in
the download directory is never fetched during a downloader round (its
fetch-call counter is unchanged) and never appears in the returned
failed list; hence a re-run over the same directory never re-fetches a
key whose file exists. -/
theorem dedup_skip (digest : String → String)
    (fetch : String → Nat → String) (queries : List String) :
    ∀ (st : OrchState) (q : String),
      (assocLookup (digest q ++ ".fasta") st.files).isSome = true →
      q ∉ (ena_download_accessions digest fetch queries st).failed ∧
      attemptsOf (ena_download_accessions digest fetch queries st).finalState q
        = attemptsOf st q := by
  induction queries with
  | nil =>
    intro st q h
    exact ⟨List.not_mem_nil q, rfl⟩
  | cons q1 rest ih =>
    intro st q h
    rcases hex : assocLookup (digest q1 ++ ".fasta") st.files with _ | v
    · have hqq : q ≠ q1 := by
        intro he
        rw [he, hex] at h
        exact Bool.noConfusion h
      by_cases hf : fetch q1 (attemptsOf st q1) = ""
      · rw [dl_cons_fail digest fetch q1 rest st hex hf]
        have hih := ih ⟨st.files, (q1, attemptsOf st q1 + 1) :: st.attempts⟩ q h
        refine ⟨?_, ?_⟩
        · intro hmem
          rcases List.mem_cons.mp hmem with he | hmem2
          · exact hqq he
          · exact hih.1 hmem2
        · rw [hih.2]
          show (assocLookup q ((q1, attemptsOf st q1 + 1) :: st.attempts)).getD 0
            = attemptsOf st q
          rw [assocLookup_cons_ne q q1 _ st.attempts hqq]
          rfl
      · rw [dl_cons_write digest fetch q1 rest st hex hf]
        have hex2 : (assocLookup (digest q ++ ".fasta")
            ((digest q1 ++ ".fasta", fetch q1 (attemptsOf st q1)) :: st.files)).isSome
            = true := assocLookup_cons_isSome _ _ _ _ h
        have hih := ih ⟨(digest q1 ++ ".fasta", fetch q1 (attemptsOf st q1)) :: st.files,
          (q1, attemptsOf st q1 + 1) :: st.attempts⟩ q hex2
        refine ⟨hih.1, ?_⟩
        rw [hih.2]
        show (assocLookup q ((q1, attemptsOf st q1 + 1) :: st.attempts)).getD 0
          = attemptsOf st q
        rw [assocLookup_cons_ne q q1 _ st.attempts hqq]
        rfl
    · rw [dl_cons_skip digest fetch q1 rest st (by rw [hex]; rfl)]
      exact ih st q h

/-- C5 witness: with the file for key `A` already on disk, a round over
`[A, B]` neither fails `A` nor fetches it. -/
theorem dedup_skip_witness :
    "A" ∉ (ena_download_accessions (fun q => q) (fun _ _ => "T") ["A", "B"]
        ⟨[("A.fasta", "X")], []⟩).failed ∧
      attemptsOf (ena_download_accessions (fun q => q) (fun _ _ => "T")
        ["A", "B"] ⟨[("A.fasta", "X")], []⟩).finalState "A"
        = attemptsOf ⟨[("A.fasta", "X")], []⟩ "A" :=
  dedup_skip (fun q => q) (fun _ _ => "T") ["A", "B"]
    ⟨[("A.fasta", "X")], []⟩ "A" (by decide)

/-- The batch key of an attempt event whose fetch returned empty text. -/
def emptyAttemptKey : FetchEvent → Option String
  | FetchEvent.attempted q r => if r = "" then some q else none
  | FetchEvent.skipped _ => none

/-- C6: in every downloader round, the returned failed list is exactly
the sequence of batch keys that were actually attempted (not skipped by
the existence check) and whose fetch returned empty text, in encounter
order; and every attempted key whose fetch returned non-empty text ends
the round with that text stored at its digest-named path. -/
theorem failed_list_spec (digest : String → String)
    (fetch : String → Nat → String) (queries : List String) :
    ∀ (st : OrchState),
      (ena_download_accessions digest fetch queries st).failed
        = (ena_download_accessions digest fetch queries st).events.filterMap
            emptyAttemptKey
      ∧ ∀ q r,
          FetchEvent.attempted q r
              ∈ (ena_download_accessions digest fetch queries st).events →
          r ≠ "" →
          assocLookup (digest q ++ ".fasta")
            (ena_download_accessions digest fetch queries st).finalState.files
            = some r := by
  induction queries with
  | nil =>
    intro st
    refine ⟨rfl, ?_⟩
    intro q r hmem
    exact absurd hmem (List.not_mem_nil _)
  | cons q1 rest ih =>
    intro st
    rcases hex : assocLookup (digest q1 ++ ".fasta") st.files with _ | v
    · by_cases hf : fetch q1 (attemptsOf st q1) = ""
      · rw [dl_cons_fail digest fetch q1 rest st hex hf, hf]
        have hih := ih ⟨st.files, (q1, attemptsOf st q1 + 1) :: st.attempts⟩
        refine ⟨?_, ?_⟩
        · show q1 :: _ = List.filterMap emptyAttemptKey
            (FetchEvent.attempted q1 "" :: _)
          rw [List.filterMap_cons, hih.1]
          simp [emptyAttemptKey]
        · intro q r hmem hr
          rcases List.mem_cons.mp hmem with he | hmem2
          · cases he
            exact absurd rfl hr
          · exact hih.2 q r hmem2 hr
      · rw [dl_cons_write digest fetch q1 rest st hex hf]
        have hih := ih ⟨(digest q1 ++ ".fasta", fetch q1 (attemptsOf st q1))
            :: st.files, (q1, attemptsOf st q1 + 1) :: st.attempts⟩
        refine ⟨?_, ?_⟩
        · show _ = List.filterMap emptyAttemptKey
            (FetchEvent.attempted q1 (fetch q1 (attemptsOf st q1)) :: _)
          rw [List.filterMap_cons, hih.1]
          simp [emptyAttemptKey, hf]
        · intro q r hmem hr
          rcases List.mem_cons.mp hmem with he | hmem2
          · cases he
            exact dl_preserves_file digest fetch rest _ _ _
              (assocLookup_cons_self _ _ _)
          · exact hih.2 q r hmem2 hr
    · rw [dl_cons_skip digest fetch q1 rest st (by rw [hex]; rfl)]
      have hih := ih st
      refine ⟨?_, ?_⟩
      · show _ = List.filterMap emptyAttemptKey (FetchEvent.skipped q1 :: _)
        rw [List.filterMap_cons, hih.1]
        simp [emptyAttemptKey]
      · intro q r hmem hr
        rcases List.mem_cons.mp hmem with he | hmem2
        · exact FetchEvent.noConfusion he
        · exact hih.2 q r hmem2 hr

/-- C6 witness: with key `a` fetching empty and key `b` fetching `TXT`
from a fresh directory, the failed list is the empty-fetch attempts of
the trace, and the file for `b` holds `TXT`. -/
theorem failed_list_spec_witness :
    (ena_download_accessions (fun q => q) (fun q _ => if q = "b" then "TXT" else "")
        ["a", "b"] ⟨[], []⟩).failed
      = (ena_download_accessions (fun q => q)
          (fun q _ => if q = "b" then "TXT" else "")
          ["a", "b"] ⟨[], []⟩).events.filterMap emptyAttemptKey
    ∧ assocLookup ("b" ++ ".fasta")
        (ena_download_accessions (fun q => q)
          (fun q _ => if q = "b" then "TXT" else "")
          ["a", "b"] ⟨[], []⟩).finalState.files = some "TXT" :=
  ⟨(failed_list_spec (fun q => q) (fun q _ => if q = "b" then "TXT" else "")
      ["a", "b"] ⟨[], []⟩).1,
    (failed_list_spec (fun q => q) (fun q _ => if q = "b" then "TXT" else "")
      ["a", "b"] ⟨[], []⟩).2 "b" "TXT" (by decide) (by decide)⟩

/-- Number of directory entries recorded for a path. -/
def countKey (p : String) (files : List (String × String)) : Nat :=
  files.countP (fun e => e.1 == p)

/-- An absent path has no directory entries at all. -/
theorem countKey_eq_zero_of_none (p : String) (files : List (String × String))
    (h : assocLookup p files = none) : countKey p files = 0 := by
  induction files with
  | nil => rfl
  | cons e rest ih =>
    rcases e with ⟨k, v⟩
    by_cases hpk : p = k
    · rw [hpk, assocLookup_cons_self] at h
      exact Option.noConfusion h
    · rw [assocLookup_cons_ne p k v rest hpk] at h
      rw [countKey, List.countP_cons]
      have : (k == p) = false := by
        simp [Ne.symm hpk]
      simp only [this]
      simpa [countKey] using ih h

/-- Entry count for a path after prepending an entry for that path. -/
theorem countKey_cons_self (p : String) (v : String)
    (files : List (String × String)) :
    countKey p ((p, v) :: files) = countKey p files + 1 := by
  rw [countKey, List.countP_cons]
  simp [countKey]

/-- Entry count for a path after prepending an entry for another path. -/
theorem countKey_cons_ne (p k : String) (v : String)
    (files : List (String × String)) (h : k ≠ p) :
    countKey p ((k, v) :: files) = countKey p files := by
  rw [countKey, List.countP_cons]
  simp [countKey, h]

/-- Frame property of one downloader round: a path absent at the start
gains at most one directory entry, and a path present at the start keeps
its content and gains no entry at all. -/
theorem dl_files_frame (digest : String → String)
    (fetch : String → Nat → String) (queries : List String) :
    ∀ (st : OrchState) (p : String),
      (assocLookup p st.files = none →
        countKey p
          (ena_download_accessions digest fetch queries st).finalState.files
          ≤ 1) ∧
      (∀ c, assocLookup p st.files = some c →
        countKey p
          (ena_download_accessions digest fetch queries st).finalState.files
          = countKey p st.files) := by
  induction queries with
  | nil =>
    intro st p
    refine ⟨?_, ?_⟩
    · intro h
      rw [show (ena_download_accessions digest fetch [] st).finalState = st
        from rfl]
      rw [countKey_eq_zero_of_none p st.files h]
      omega
    · intro c h
      rfl
  | cons q1 rest ih =>
    intro st p
    rcases hex : assocLookup (digest q1 ++ ".fasta") st.files with _ | v
    · by_cases hf : fetch q1 (attemptsOf st q1) = ""
      · rw [dl_cons_fail digest fetch q1 rest st hex hf]
        exact ih ⟨st.files, (q1, attemptsOf st q1 + 1) :: st.attempts⟩ p
      · rw [dl_cons_write digest fetch q1 rest st hex hf]
        have hih := ih ⟨(digest q1 ++ ".fasta", fetch q1 (attemptsOf st q1))
            :: st.files, (q1, attemptsOf st q1 + 1) :: st.attempts⟩ p
        by_cases hpp : p = digest q1 ++ ".fasta"
        · refine ⟨?_, ?_⟩
          · intro h
            have hself : assocLookup p ((digest q1 ++ ".fasta",
                fetch q1 (attemptsOf st q1)) :: st.files)
                = some (fetch q1 (attemptsOf st q1)) := by
              rw [hpp]
              exact assocLookup_cons_self _ _ _
            have hcnt := hih.2 (fetch q1 (attemptsOf st q1)) hself
            have hc1 : countKey p ((digest q1 ++ ".fasta",
                fetch q1 (attemptsOf st q1)) :: st.files)
                = countKey p st.files + 1 := by
              rw [hpp]
              exact countKey_cons_self _ _ _
            rw [hcnt, hc1, countKey_eq_zero_of_none p st.files h]
          · intro c h
            rw [← hpp, h] at hex
            exact Option.noConfusion hex
        · refine ⟨?_, ?_⟩
          · intro h
            refine hih.1 ?_
            show assocLookup p ((digest q1 ++ ".fasta",
              fetch q1 (attemptsOf st q1)) :: st.files) = none
            rw [assocLookup_cons_ne _ _ _ _ hpp]
            exact h
          · intro c h
            have h2 : assocLookup p ((digest q1 ++ ".fasta",
                fetch q1 (attemptsOf st q1)) :: st.files) = some c := by
              rw [assocLookup_cons_ne _ _ _ _ hpp]
              exact h
            have hcnt := hih.2 c h2
            have hc2 : countKey p ((digest q1 ++ ".fasta",
                fetch q1 (attemptsOf st q1)) :: st.files)
                = countKey p st.files :=
              countKey_cons_ne p _ _ st.files (fun he => hpp he.symm)
            rw [hcnt, hc2]
    · rw [dl_cons_skip digest fetch q1 rest st (by rw [hex]; rfl)]
      exact ih st p

/-- A file present with some content before the retry loop still has
exactly that content when the loop terminates. -/
theorem retrieve_loop_preserves_file (digest : String → String)
    (fetch : String → Nat → String) :
    ∀ (fuel : Nat) (failed : List String) (st stF : OrchState) (p c : String),
      assocLookup p st.files = some c →
      ena_retrieve_loop digest fetch fuel failed st = some stF →
      assocLookup p stF.files = some c := by
  intro fuel
  induction fuel with
  | zero =>
    intro failed st stF p c h hloop
    cases failed with
    | nil =>
      rw [show ena_retrieve_loop digest fetch 0 [] st = some st from rfl]
        at hloop
      cases hloop
      exact h
    | cons f fs =>
      exact Option.noConfusion hloop
  | succ n ih =>
    intro failed st stF p c h hloop
    cases failed with
    | nil =>
      rw [show ena_retrieve_loop digest fetch (n + 1) [] st = some st from rfl]
        at hloop
      cases hloop
      exact h
    | cons f fs =>
      rw [ena_retrieve_loop] at hloop
      exact ih _ _ stF p c
        (dl_preserves_file digest fetch (f :: fs) st p c h) hloop

/-- C8: a file that exists at its digest-named path is never written
again.  In one downloader round, a path present at the start keeps its
exact content and gains no directory entry, and a path absent at the
start is written at most once (only after the existence check found it
absent); across a whole `ena_retrieve` run, any file present at the
start is intact at termination. -/
theorem write_once (digest : String → String)
    (fetch : String → Nat → String) (queries : List String)
    (st : OrchState) (p : String) :
    (∀ c, assocLookup p st.files = some c →
      assocLookup p
        (ena_download_accessions digest fetch queries st).finalState.files
        = some c ∧
      countKey p
        (ena_download_accessions digest fetch queries st).finalState.files
        = countKey p st.files) ∧
    (assocLookup p st.files = none →
      countKey p
        (ena_download_accessions digest fetch queries st).finalState.files
        ≤ 1) ∧
    (∀ (fuel : Nat) (stF : OrchState) (c : String),
      assocLookup p st.files = some c →
      ena_retrieve digest fetch fuel queries st = some stF →
      assocLookup p stF.files = some c) := by
  refine ⟨?_, (dl_files_frame digest fetch queries st p).1, ?_⟩
  · intro c h
    exact ⟨dl_preserves_file digest fetch queries st p c h,
      (dl_files_frame digest fetch queries st p).2 c h⟩
  · intro fuel stF c h hret
    rw [ena_retrieve] at hret
    exact retrieve_loop_preserves_file digest fetch fuel _ _ stF p c
      (dl_preserves_file digest fetch queries st p c h) hret

/-- C8 witness: a pre-existing file `Z` survives a round and a full
retrieve run untouched, and a fresh path is written at most once. -/
theorem write_once_witness :
    (assocLookup "Z"
        (ena_download_accessions (fun q => q) (fun _ _ => "T") ["A"]
          ⟨[("Z", "C")], []⟩).finalState.files = some "C" ∧
      countKey "Z"
        (ena_download_accessions (fun q => q) (fun _ _ => "T") ["A"]
          ⟨[("Z", "C")], []⟩).finalState.files
        = countKey "Z" [("Z", "C")]) ∧
    countKey "A.fasta"
      (ena_download_accessions (fun q => q) (fun _ _ => "T") ["A"]
        ⟨[("Z", "C")], []⟩).finalState.files ≤ 1 :=
  ⟨(write_once (fun q => q) (fun _ _ => "T") ["A"] ⟨[("Z", "C")], []⟩ "Z").1
      "C" (by decide),
    (write_once (fun q => q) (fun _ _ => "T") ["A"]
      ⟨[("Z", "C")], []⟩ "A.fasta").2.1 (by decide)⟩

/-- C7: when the sequence-archive HTTP response for a batch query is a
transport-level success with an empty body, `ena_fetch` returns the
empty string rather than raising.  The gunzip-and-decode step is CPython
stdlib behaviour outside this repository; the spec fixes its contract on
an empty body (empty body means empty text), which appears here as the
hypothesis on the modelled decoder. -/
theorem ena_fetch_empty_body (http_get : String → List Nat)
    (gunzip_decode : List Nat → String) (ena_query : String)
    (hgz : gunzip_decode [] = "")
    (hbody : http_get ("https://www.ebi.ac.uk/ena/browser/api/fasta/"
      ++ ena_query) = []) :
    ena_fetch http_get gunzip_decode ena_query = "" := by
  rw [ena_fetch, hbody, hgz]

/-- C7 witness: a concrete empty-body response yields the empty string. -/
theorem ena_fetch_empty_body_witness :
    ena_fetch (fun _ => []) (fun bs => if bs.isEmpty then "" else "X")
      "AB123" = "" :=
  ena_fetch_empty_body (fun _ => [])
    (fun bs => if bs.isEmpty then "" else "X") "AB123" rfl rfl

/-! ## GO-term validation: `is_valid_go_term` (lines 299-306)

The source validates a GO term with the comprehension
`[int(x) for x in go_term]` inside try/except ValueError.  CPython
`int()` on a one-character string succeeds exactly on the Unicode
decimal digit characters (general category Nd) and returns the decimal
value of the digit; every other character raises ValueError.  Category
Nd consists of runs of ten consecutive codepoints (digit values 0 to 9),
one run per script; the table below lists the runs of Unicode 14.0, the
database of the CPython versions this program targets.  Note that Nd is
a strict superset of the ASCII digits: for example the Arabic-Indic
digit three (codepoint 0x663) parses as the integer 3. -/

/-- The Unicode decimal digit (category Nd) runs: each pair is the
first and last codepoint of a run of ten digits with values 0 to 9. -/
def ndDigitRanges : List (Nat × Nat) := [
  (0x30, 0x39), (0x660, 0x669), (0x6F0, 0x6F9), (0x7C0, 0x7C9),
  (0x966, 0x96F), (0x9E6, 0x9EF), (0xA66, 0xA6F), (0xAE6, 0xAEF),
  (0xB66, 0xB6F), (0xBE6, 0xBEF), (0xC66, 0xC6F), (0xCE6, 0xCEF),
  (0xD66, 0xD6F), (0xDE6, 0xDEF), (0xE50, 0xE59), (0xED0, 0xED9),
  (0xF20, 0xF29), (0x1040, 0x1049), (0x1090, 0x1099), (0x17E0, 0x17E9),
  (0x1810, 0x1819), (0x1946, 0x194F), (0x19D0, 0x19D9), (0x1A80, 0x1A89),
  (0x1A90, 0x1A99), (0x1B50, 0x1B59), (0x1BB0, 0x1BB9), (0x1C40, 0x1C49),
  (0x1C50, 0x1C59), (0xA620, 0xA629), (0xA8D0, 0xA8D9), (0xA900, 0xA909),
  (0xA9D0, 0xA9D9), (0xA9F0, 0xA9F9), (0xAA50, 0xAA59), (0xABF0, 0xABF9),
  (0xFF10, 0xFF19), (0x104A0, 0x104A9), (0x10D30, 0x10D39), (0x11066, 0x1106F),
  (0x110F0, 0x110F9), (0x11136, 0x1113F), (0x111D0, 0x111D9), (0x112F0, 0x112F9),
  (0x11450, 0x11459), (0x114D0, 0x114D9), (0x11650, 0x11659), (0x116C0, 0x116C9),
  (0x11730, 0x11739), (0x118E0, 0x118E9), (0x11950, 0x11959), (0x11C50, 0x11C59),
  (0x11D50, 0x11D59), (0x11DA0, 0x11DA9), (0x16A60, 0x16A69), (0x16AC0, 0x16AC9),
  (0x16B50, 0x16B59), (0x1D7CE, 0x1D7D7), (0x1D7D8, 0x1D7E1), (0x1D7E2, 0x1D7EB),
  (0x1D7EC, 0x1D7F5), (0x1D7F6, 0x1D7FF), (0x1E140, 0x1E149), (0x1E2F0, 0x1E2F9),
  (0x1E950, 0x1E959), (0x1FBF0, 0x1FBF9)]

/-- Does the codepoint of `c` fall inside the digit run `r`? -/
def ndContains (c : Char) (r : Nat × Nat) : Bool :=
  decide (r.1 ≤ c.toNat) && decide (c.toNat ≤ r.2)

/-- Is `c` a Unicode decimal digit (general category Nd)? -/
def isUnicodeDecimalDigit (c : Char) : Bool :=
  ndDigitRanges.any (ndContains c)

/-- Model of CPython `int(s)` applied to the one-character string made
of `c` (the `int(x)` inside the comprehension of `is_valid_go_term`):
it succeeds exactly on Unicode decimal digit characters, returning the
decimal value of the digit (the offset inside its run), and raises
ValueError (here `none`) on everything else. -/
def singleCharInt (c : Char) : Option Nat :=
  match ndDigitRanges.find? (ndContains c) with
  | some r => some (c.toNat - r.1)
  | none => none

/-- Model of `is_valid_go_term`: the comprehension
`[int(x) for x in go_term]` raises ValueError iff `int` fails on some
character, so the function returns True iff every character parses
(vacuously True on the empty string, as in the source). -/
def is_valid_go_term (go_term : PyStr) : Bool :=
  go_term.all (fun c => (singleCharInt c).isSome)

/-- A single character parses as an int exactly when it is a Unicode
decimal digit. -/
theorem singleCharInt_isSome (c : Char) :
    (singleCharInt c).isSome = true ↔ isUnicodeDecimalDigit c = true := by
  rw [singleCharInt, isUnicodeDecimalDigit]
  rcases hf : ndDigitRanges.find? (ndContains c) with _ | r
  · simp only [Option.isSome_none, Bool.false_eq_true, false_iff]
    rw [List.find?_eq_none] at hf
    intro h
    rcases List.any_eq_true.mp h with ⟨r, hr, hpred⟩
    exact absurd hpred (by simpa using hf r hr)
  · simp only [Option.isSome_some, true_iff]
    exact List.any_eq_true.mpr ⟨r, List.mem_of_find?_eq_some hf,
      List.find?_some hf⟩

/-- C9 counterexample: the claim fails on the Arabic-Indic digit three
(codepoint 0x663).  CPython `int()` accepts every Unicode decimal
digit, not only the ASCII ones, so `is_valid_go_term` returns True on
this one-character string although the character is not between `0`
and `9`; the only-if direction of the claimed equivalence is false. -/
theorem go_term_digits_fails_on_unicode_digit :
    is_valid_go_term ['٣'] = true ∧ ¬ ('0' ≤ '٣' ∧ '٣' ≤ '9') := by
  constructor
  · decide
  · decide

/-- C9 (amended): `is_valid_go_term` returns True exactly when every
character of its argument is a Unicode decimal digit (general category
Nd, the set CPython `int()` accepts) — a superset of the ASCII digits
`0` to `9`.  The check is per character, so leading zeros are accepted
(and remain significant, as the term is never parsed as a whole
integer). -/
theorem go_term_digits_amended (go_term : PyStr) :
    is_valid_go_term go_term = true ↔
      ∀ c ∈ go_term, isUnicodeDecimalDigit c = true := by
  rw [is_valid_go_term, List.all_eq_true]
  constructor
  · intro h c hc
    exact (singleCharInt_isSome c).mp (h c hc)
  · intro h c hc
    exact (singleCharInt_isSome c).mpr (h c hc)

/-- C9 witness: an ASCII GO term with leading zeros validates, so the
ASCII digits are inside the accepted set. -/
theorem go_term_digits_amended_witness :
    is_valid_go_term "0016021".toList = true :=
  (go_term_digits_amended "0016021".toList).mpr (by decide)

/-! ## Amino-acid FASTA formatting: `amino_acid_format` (lines 129-136) -/

/-- Number of parts of a split: one more than the separator count. -/
theorem sepSplit_count_length (sep : Char) (s : PyStr) :
    (sepSplit sep s).length = s.count sep + 1 := by
  induction s with
  | nil => simp [sepSplit]
  | cons c rest ih =>
    simp only [sepSplit]
    by_cases hc : c = sep
    · subst hc
      rw [if_pos rfl]
      simp only [List.length_cons, List.count_cons_self, ih]
    · rw [if_neg hc]
      rcases hr : sepSplit sep rest with _ | ⟨r, rs⟩
      · exact absurd hr (sepSplit_ne_nil sep rest)
      · rw [hr] at ih
        rw [List.count_cons_of_ne (Ne.symm hc)]
        simp only [List.length_cons] at ih ⊢
        omega

/-- The first part of a split is the longest separator-free leading
chunk of the string. -/
theorem sepSplit_head (sep : Char) (s : PyStr) :
    ∃ rs, sepSplit sep s = (s.takeWhile (fun c => c != sep)) :: rs := by
  induction s with
  | nil => exact ⟨[], rfl⟩
  | cons c rest ih =>
    by_cases hc : c = sep
    · refine ⟨sepSplit sep rest, ?_⟩
      simp [sepSplit, hc, List.takeWhile_cons]
    · obtain ⟨rs, hrs⟩ := ih
      refine ⟨rs, ?_⟩
      simp only [sepSplit, if_neg hc, hrs]
      simp [List.takeWhile_cons, hc]

/-- One row of the UniProt results table, with exactly the fields that
`amino_acid_format` reads. -/
structure UniprotRow where
  ena_accession : PyStr
  aa_sequence : PyStr
  name : PyStr

/-- Model of `amino_acid_format`: `versioned_accession.split(".")` is
unpacked into exactly two names (`versionless_accession, _`), which
succeeds only when the split has exactly two parts; any other shape
raises ValueError in Python, modelled as `Except.error`.  On success it
returns the one-record FASTA text built by the f-string. -/
def amino_acid_format (uniprot_row : UniprotRow) : Except String PyStr :=
  match sepSplit '.' uniprot_row.ena_accession with
  | [versionless_accession, _] =>
    Except.ok (">ENA|".toList ++ versionless_accession ++ "|".toList
      ++ uniprot_row.ena_accession ++ "|".toList ++ uniprot_row.name
      ++ "\n".toList ++ uniprot_row.aa_sequence ++ "\n".toList)
  | _ => Except.error "ValueError: unpacking"

/-- C10: `amino_acid_format` succeeds exactly when the accession has
exactly one dot, returning the FASTA record
`>ENA|<part-before-dot>|<full-accession>|<name>\n<aa_sequence>\n`; with
zero dots or more than one dot it raises an unpacking ValueError. -/
theorem amino_acid_format_spec (uniprot_row : UniprotRow) :
    (uniprot_row.ena_accession.count '.' = 1 →
      amino_acid_format uniprot_row
        = Except.ok (">ENA|".toList
            ++ uniprot_row.ena_accession.takeWhile (fun c => c != '.')
            ++ "|".toList ++ uniprot_row.ena_accession ++ "|".toList
            ++ uniprot_row.name ++ "\n".toList ++ uniprot_row.aa_sequence
            ++ "\n".toList)) ∧
    (uniprot_row.ena_accession.count '.' ≠ 1 →
      ∃ e, amino_acid_format uniprot_row = Except.error e) := by
  constructor
  · intro h1
    obtain ⟨rs, hsp⟩ := sepSplit_head '.' uniprot_row.ena_accession
    have hlen := sepSplit_count_length '.' uniprot_row.ena_accession
    rw [h1, hsp] at hlen
    rcases rs with _ | ⟨b, rs2⟩
    · simp at hlen
    · rcases rs2 with _ | ⟨b2, rs3⟩
      · rw [amino_acid_format, hsp]
      · simp at hlen
  · intro h1
    rcases hsp : sepSplit '.' uniprot_row.ena_accession with _ | ⟨a, rs⟩
    · exact absurd hsp (sepSplit_ne_nil _ _)
    · have hlen := sepSplit_count_length '.' uniprot_row.ena_accession
      rw [hsp] at hlen
      rcases rs with _ | ⟨b, rs2⟩
      · exact ⟨"ValueError: unpacking", by rw [amino_acid_format, hsp]⟩
      · rcases rs2 with _ | ⟨c2, rs3⟩
        · exfalso
          apply h1
          simp only [List.length_cons, List.length_nil] at hlen
          omega
        · exact ⟨"ValueError: unpacking", by rw [amino_acid_format, hsp]⟩

/-- C10 witness: a one-dot accession formats, evaluated concretely. -/
theorem amino_acid_format_spec_witness :
    amino_acid_format ⟨"AB12.1".toList, "MKV".toList, "protein 1".toList⟩
      = Except.ok (">ENA|".toList
          ++ ("AB12.1".toList.takeWhile (fun c => c != '.'))
          ++ "|".toList ++ "AB12.1".toList ++ "|".toList
          ++ "protein 1".toList ++ "\n".toList ++ "MKV".toList
          ++ "\n".toList) :=
  (amino_acid_format_spec
    ⟨"AB12.1".toList, "MKV".toList, "protein 1".toList⟩).1 (by decide)
